import Mathlib

/-!
Shallow embedding of the analytics computations of the Fantasy-NBA-Analytics
frontend, together with theorems settling the specification claims about them.

Numeric JavaScript values are modelled as rationals (`ℚ`); `Record<string, number>`
payloads with possibly-absent keys are modelled as `String → Option ℚ`, with the
source's `?? 0` / `|| 0` defaults made explicit via `Option.getD`.
-/

namespace FantasyNBA

/-- The fixed nine-category list, from `OpponentDetailModal` (unnamed part_005,
line 20) and `LeagueRankings.tsx` line 853. -/
def CATEGORIES : List String := ["PTS", "REB", "AST", "STL", "BLK", "FG%", "FT%", "3PM", "TO"]

/-- Embedding of `isBetter` from `OpponentDetailModal` (part_005 line 32) and
`LeagueRankings.tsx` lines 856-857:
`(cat, a, b) => (cat === 'TO' ? a < b : a > b)`. -/
def isBetter (cat : String) (a b : ℚ) : Bool :=
  if cat = "TO" then decide (a < b) else decide (b < a)

/-- Per-category outcome of a comparison: the team wins, the opponent wins, or tie. -/
inductive CatOutcome where
  | team
  | opponent
  | tie
deriving DecidableEq, Repr

/-- Embedding of the per-category winner assignment in `OpponentDetailModal`
(part_005 lines 71-74): `better = isBetter(cat, my, opp)`, `isTie = my === opp`,
`winner = Tie; if (!isTie) winner = better ? teamName : opponentName`. -/
def categoryOutcome (cat : String) (my opp : ℚ) : CatOutcome :=
  if my = opp then .tie
  else if isBetter cat my opp then .team else .opponent

/-- Category-total access in `OpponentDetailModal` (part_005 lines 69-70):
`teamCategoryTotals[cat] ?? 0`. -/
def catVal (totals : String → Option ℚ) (cat : String) : ℚ := (totals cat).getD 0

/-- Number of categories of the fixed nine-category set the team wins against
the opponent, per the `OpponentDetailModal` comparison. -/
def wonCount (team opp : String → Option ℚ) : Nat :=
  (CATEGORIES.filter (fun c => categoryOutcome c (catVal team c) (catVal opp c) = .team)).length

/-- Number of categories the opponent wins, per the `OpponentDetailModal` comparison. -/
def lostCount (team opp : String → Option ℚ) : Nat :=
  (CATEGORIES.filter (fun c => categoryOutcome c (catVal team c) (catVal opp c) = .opponent)).length

/-- Number of tied categories, per the `OpponentDetailModal` comparison. -/
def tiedCount (team opp : String → Option ℚ) : Nat :=
  (CATEGORIES.filter (fun c => categoryOutcome c (catVal team c) (catVal opp c) = .tie)).length

/-- Any list splits into the three outcome classes of a `CatOutcome`-valued map. -/
theorem length_filter_outcomes (l : List String) (f : String → CatOutcome) :
    (l.filter (fun c => f c = .team)).length + (l.filter (fun c => f c = .opponent)).length
      + (l.filter (fun c => f c = .tie)).length = l.length := by
  induction l with
  | nil => simp
  | cons a l ih =>
    rcases h : f a <;> simp [List.filter_cons, h] <;> omega

/-- Matchup details payload as consumed by `LeagueRankings.tsx`: aggregate
won/lost/tied category counts plus the lists of category names won and lost. -/
structure MatchupDetails where
  won : Nat
  lost : Nat
  tied : Nat
  won_cats : List String
  lost_cats : List String
deriving DecidableEq

/-- A team entry of a week payload in `LeagueRankings.tsx`: the team name and its
`matchup_details` record keyed by opponent name (modelled as an association list
in `Object.entries` order). -/
structure Team where
  name : String
  matchup_details : List (String × MatchupDetails)
deriving DecidableEq

/-- A week payload as consumed by `generateLeaderboard`. -/
structure WeekData where
  teams : List Team
deriving DecidableEq

/-- One row of the weekly leaderboard (`LeagueRankings.tsx` lines 356-364). -/
structure LeaderboardEntry where
  team_name : String
  total_wins : Nat
  teams_beaten : List String
deriving DecidableEq

/-- Embedding of `calculateTeamsBeaten` (`LeagueRankings.tsx` lines 816-825):
a counting loop over `Object.entries(team.matchup_details)` incrementing when
`details.won >= 5`; `undefined` input returns 0. -/
def calculateTeamsBeaten (team : Option Team) : Nat :=
  match team with
  | none => 0
  | some t => t.matchup_details.foldl (fun count p => if 5 ≤ p.2.won then count + 1 else count) 0

/-- JavaScript object key assignment `record[k] = v` on a string-keyed record:
an existing key keeps its position and gets the new value, a new key is appended. -/
def recordSet (k : String) (v : α) : List (String × α) → List (String × α)
  | [] => [(k, v)]
  | (k2, v2) :: rest => if k2 = k then (k2, v) :: rest else (k2, v2) :: recordSet k v rest

/-- The inner loop of `generateLeaderboard` (`LeagueRankings.tsx` lines 344-352):
walk the team's matchup details, incrementing `wins` and pushing the opponent
whenever `details.won >= 5`. -/
def teamWeekBeaten (t : Team) : Nat × List String :=
  t.matchup_details.foldl
    (fun acc p => if 5 ≤ p.2.won then (acc.1 + 1, acc.2 ++ [p.1]) else acc) (0, [])

/-- Embedding of `generateLeaderboard` (`LeagueRankings.tsx` lines 337-365):
build a record keyed by team name holding `(wins, beaten)`, turn its entries into
leaderboard rows, and sort by `total_wins` descending. -/
def generateLeaderboard (weekData : Option WeekData) : List LeaderboardEntry :=
  match weekData with
  | none => []
  | some wd =>
    let records := wd.teams.foldl (fun acc t => recordSet t.name (teamWeekBeaten t) acc) []
    List.insertionSort (fun a b => b.total_wins ≤ a.total_wins)
      (records.map (fun p => ⟨p.1, p.2.1, p.2.2⟩))

/-- The counting loop of `calculateTeamsBeaten` computes `countP`. -/
theorem foldl_count_eq_countP (l : List (String × MatchupDetails)) (n : Nat) :
    l.foldl (fun count p => if 5 ≤ p.2.won then count + 1 else count) n
      = n + l.countP (fun p => 5 ≤ p.2.won) := by
  induction l generalizing n with
  | nil => simp
  | cons a l ih =>
    by_cases h : 5 ≤ a.2.won <;> simp [List.countP_cons, h, ih] <;> omega

/-- The inner loop of `generateLeaderboard` computes the filtered opponents and
their count. -/
theorem teamWeekBeaten_eq (t : Team) :
    teamWeekBeaten t
      = ((t.matchup_details.filter (fun p => 5 ≤ p.2.won)).length,
         (t.matchup_details.filter (fun p => 5 ≤ p.2.won)).map Prod.fst) := by
  unfold teamWeekBeaten
  suffices h : ∀ (l : List (String × MatchupDetails)) (acc : Nat × List String),
      l.foldl (fun acc p => if 5 ≤ p.2.won then (acc.1 + 1, acc.2 ++ [p.1]) else acc) acc
        = (acc.1 + (l.filter (fun p => 5 ≤ p.2.won)).length,
           acc.2 ++ (l.filter (fun p => 5 ≤ p.2.won)).map Prod.fst) by
    simpa using h t.matchup_details (0, [])
  intro l
  induction l with
  | nil => simp
  | cons a l ih =>
    intro acc
    by_cases h : 5 ≤ a.2.won <;> simp [List.filter_cons, h, ih] <;> omega

/-- Setting a fresh key appends it to the record. -/
theorem recordSet_of_not_mem (k : String) (v : α) (l : List (String × α))
    (h : ∀ p ∈ l, p.1 ≠ k) : recordSet k v l = l ++ [(k, v)] := by
  induction l with
  | nil => rfl
  | cons a l ih =>
    have ha : a.1 ≠ k := h a (by simp)
    simp only [recordSet, if_neg ha, List.cons_append]
    rw [ih (fun p hp => h p (by simp [hp]))]

/-- Building a record from teams with pairwise-distinct names yields one entry
per team, in order. -/
theorem foldl_recordSet_nodup (f : Team → α) :
    ∀ (l : List Team) (acc : List (String × α)),
      (∀ t ∈ l, ∀ p ∈ acc, p.1 ≠ t.name) → (l.map Team.name).Nodup →
      l.foldl (fun acc t => recordSet t.name (f t) acc) acc
        = acc ++ l.map (fun t => (t.name, f t)) := by
  intro l
  induction l with
  | nil => simp
  | cons a l ih =>
    intro acc hacc hnodup
    simp only [List.foldl_cons]
    rw [recordSet_of_not_mem a.name (f a) acc (fun p hp => hacc a (by simp) p hp)]
    rw [ih (acc ++ [(a.name, f a)]) ?_ ?_]
    · simp
    · intro t ht p hp
      rcases List.mem_append.mp hp with hp | hp
      · exact hacc t (by simp [ht]) p hp
      · simp only [List.mem_singleton] at hp
        subst hp
        simp only [List.map_cons, List.nodup_cons, List.mem_map] at hnodup
        exact fun hne => hnodup.1 ⟨t, ht, hne.symm⟩
    · exact (List.nodup_cons.mp (by simpa using hnodup)).2

/-- C3: over the fixed nine-category set, each category gets exactly one of the
three outcomes, so the team's category-win count plus the opponent's category-win
count plus the tie count equals 9. -/
theorem category_outcome_partition_nine (team opp : String → Option ℚ) :
    wonCount team opp + lostCount team opp + tiedCount team opp = 9 := by
  have h := length_filter_outcomes CATEGORIES
    (fun c => categoryOutcome c (catVal team c) (catVal opp c))
  simpa [wonCount, lostCount, tiedCount, CATEGORIES] using h

/-- C2: the per-category winner computation awards the category to the side whose
value is better in the category's direction: lower value wins for turnovers,
higher value wins for every other category, and equal values produce a tie. -/
theorem categoryWinner_direction_correct (cat : String) (a b : ℚ) :
    (a = b → categoryOutcome cat a b = .tie) ∧
    (cat = "TO" →
      (categoryOutcome cat a b = .team ↔ a < b) ∧
      (categoryOutcome cat a b = .opponent ↔ b < a)) ∧
    (cat ≠ "TO" →
      (categoryOutcome cat a b = .team ↔ b < a) ∧
      (categoryOutcome cat a b = .opponent ↔ a < b)) := by
  refine ⟨fun h => by simp [categoryOutcome, h], fun hTO => ?_, fun hTO => ?_⟩
  · rcases lt_trichotomy a b with h | h | h
    · simp [categoryOutcome, isBetter, hTO, h, ne_of_lt h, asymm h]
    · simp [categoryOutcome, h, lt_irrefl]
    · simp [categoryOutcome, isBetter, hTO, h, ne_of_gt h, asymm h, h.not_lt]
  · rcases lt_trichotomy a b with h | h | h
    · simp [categoryOutcome, isBetter, hTO, h, ne_of_lt h, asymm h, h.not_lt]
    · simp [categoryOutcome, h, lt_irrefl]
    · simp [categoryOutcome, isBetter, hTO, h, ne_of_gt h, asymm h, h.not_lt]

/-- Witness for `categoryWinner_direction_correct` at concrete inputs. -/
theorem categoryWinner_direction_correct_witness :
    categoryOutcome "TO" 1 2 = .team ∧ categoryOutcome "PTS" 1 2 = .opponent := by
  constructor
  · exact ((categoryWinner_direction_correct "TO" 1 2).2.1 rfl).1.mpr (by norm_num)
  · exact ((categoryWinner_direction_correct "PTS" 1 2).2.2 (by decide)).2.mpr (by norm_num)

/-- C4: the comparison `isBetter` is antisymmetric, and on equal values neither
side wins: the outcome is a tie from both teams' perspectives. -/
theorem isBetter_antisymm_tie (cat : String) (a b : ℚ) :
    ¬(isBetter cat a b = true ∧ isBetter cat b a = true) ∧
    (a = b → isBetter cat a b = false ∧
      categoryOutcome cat a b = .tie ∧ categoryOutcome cat b a = .tie) := by
  constructor
  · rintro ⟨h1, h2⟩
    by_cases hTO : cat = "TO" <;>
      simp [isBetter, hTO] at h1 h2 <;> exact absurd (h1.trans h2) (lt_irrefl _)
  · rintro rfl
    refine ⟨?_, by simp [categoryOutcome], by simp [categoryOutcome]⟩
    by_cases hTO : cat = "TO" <;> simp [isBetter, hTO]

/-- C1: the computed "teams beaten" count equals the number of opponents whose
`won` category count is at least 5; a tied category counts toward neither side's
category-win count; and every weekly leaderboard row's `total_wins` equals the
same "teams beaten" count for that team. -/
theorem teamsBeaten_leaderboard_correct (wd : WeekData)
    (hnodup : (wd.teams.map Team.name).Nodup) :
    (∀ t : Team, calculateTeamsBeaten (some t)
        = t.matchup_details.countP (fun p => 5 ≤ p.2.won)) ∧
    (∀ (my opp : String → Option ℚ) (c : String),
        categoryOutcome c (catVal my c) (catVal opp c) = .tie →
        c ∉ CATEGORIES.filter
            (fun c => categoryOutcome c (catVal my c) (catVal opp c) = .team) ∧
        c ∉ CATEGORIES.filter
            (fun c => categoryOutcome c (catVal my c) (catVal opp c) = .opponent)) ∧
    (∀ t ∈ wd.teams, ∃ e ∈ generateLeaderboard (some wd),
        e.team_name = t.name ∧ e.total_wins = calculateTeamsBeaten (some t)) := by
  refine ⟨?_, ?_, ?_⟩
  · intro t
    simp [calculateTeamsBeaten, foldl_count_eq_countP]
  · intro my opp c htie
    refine ⟨fun hmem => ?_, fun hmem => ?_⟩
    all_goals
      rcases List.mem_filter.mp hmem with ⟨-, hc⟩
      rw [htie] at hc
      exact absurd (of_decide_eq_true hc) (by simp)
  · intro t ht
    refine ⟨⟨t.name, (teamWeekBeaten t).1, (teamWeekBeaten t).2⟩, ?_, rfl, ?_⟩
    · simp only [generateLeaderboard]
      rw [foldl_recordSet_nodup teamWeekBeaten wd.teams [] (by simp) hnodup]
      simp only [List.nil_append, List.mem_insertionSort, List.map_map, List.mem_map]
      exact ⟨t, ht, rfl⟩
    · rw [teamWeekBeaten_eq]
      simp [calculateTeamsBeaten, foldl_count_eq_countP, List.countP_eq_length_filter]

/-- Witness for `teamsBeaten_leaderboard_correct` at a concrete two-team week. -/
theorem teamsBeaten_leaderboard_correct_witness :
    (([⟨"A", [("B", ⟨6, 3, 0, [], []⟩)]⟩, ⟨"B", [("A", ⟨3, 6, 0, [], []⟩)]⟩] :
        List Team).map Team.name).Nodup ∧
    (∀ t ∈ (WeekData.mk [⟨"A", [("B", ⟨6, 3, 0, [], []⟩)]⟩,
        ⟨"B", [("A", ⟨3, 6, 0, [], []⟩)]⟩]).teams,
      ∃ e ∈ generateLeaderboard (some (WeekData.mk [⟨"A", [("B", ⟨6, 3, 0, [], []⟩)]⟩,
          ⟨"B", [("A", ⟨3, 6, 0, [], []⟩)]⟩])),
        e.team_name = t.name ∧ e.total_wins = calculateTeamsBeaten (some t)) := by
  refine ⟨by decide, ?_⟩
  exact (teamsBeaten_leaderboard_correct
    (WeekData.mk [⟨"A", [("B", ⟨6, 3, 0, [], []⟩)]⟩, ⟨"B", [("A", ⟨3, 6, 0, [], []⟩)]⟩])
    (by decide)).2.2

/-- Witness for `isBetter_antisymm_tie` at concrete inputs. -/
theorem isBetter_antisymm_tie_witness :
    ¬(isBetter "PTS" 3 3 = true ∧ isBetter "PTS" 3 3 = true) ∧
    isBetter "PTS" 3 3 = false ∧ categoryOutcome "PTS" 3 3 = .tie := by
  refine ⟨(isBetter_antisymm_tie "PTS" 3 3).1, ?_, ?_⟩
  · exact ((isBetter_antisymm_tie "PTS" 3 3).2 rfl).1
  · exact ((isBetter_antisymm_tie "PTS" 3 3).2 rfl).2.1

/-- A row of the weekly-consistency payload rendered by `LeagueOverview.tsx`
(lines 644-665): team name, average teams beaten per week, and the variance of
the weekly teams-beaten counts. -/
structure ConsistencyTeam where
  name : String
  avg : ℚ
  variance : ℚ
deriving DecidableEq

/-- Comparator relation used by the "Most Consistent Weekly" sort
(`LeagueOverview.tsx`: `sort((a, b) => a.variance - b.variance)`). -/
def varLE (a b : ConsistencyTeam) : Prop := a.variance ≤ b.variance

/-- Comparator relation used by the "Least Consistent Weekly" sort
(`LeagueOverview.tsx`: `sort((a, b) => b.variance - a.variance)`). -/
def varGE (a b : ConsistencyTeam) : Prop := b.variance ≤ a.variance

instance : DecidableRel varLE :=
  fun a b => inferInstanceAs (Decidable (a.variance ≤ b.variance))

instance : DecidableRel varGE :=
  fun a b => inferInstanceAs (Decidable (b.variance ≤ a.variance))

instance : IsTotal ConsistencyTeam varLE := ⟨fun a b => le_total a.variance b.variance⟩

instance : IsTotal ConsistencyTeam varGE := ⟨fun a b => le_total b.variance a.variance⟩

instance : IsTrans ConsistencyTeam varLE := ⟨fun _ _ _ h1 h2 => le_trans h1 h2⟩

instance : IsTrans ConsistencyTeam varGE := ⟨fun _ _ _ h1 h2 => le_trans h2 h1⟩

/-- Embedding of the "Most Consistent Weekly" presentation order
(`LeagueOverview.tsx` lines 645-646): ascending sort by variance. -/
def sortMostConsistent (l : List ConsistencyTeam) : List ConsistencyTeam :=
  List.insertionSort varLE l

/-- Embedding of the "Least Consistent Weekly" presentation order
(`LeagueOverview.tsx` lines 663-665): descending sort by variance. -/
def sortLeastConsistent (l : List ConsistencyTeam) : List ConsistencyTeam :=
  List.insertionSort varGE l

/-- C8: the "Most Consistent Weekly" list is presented in non-decreasing order of
variance and the "Least Consistent Weekly" list in non-increasing order of
variance, each a permutation of the input payload. -/
theorem consistency_sort_order (l : List ConsistencyTeam) :
    (sortMostConsistent l).Sorted varLE ∧ (sortLeastConsistent l).Sorted varGE ∧
    (sortMostConsistent l).Perm l ∧ (sortLeastConsistent l).Perm l :=
  ⟨List.sorted_insertionSort varLE l, List.sorted_insertionSort varGE l,
   List.perm_insertionSort varLE l, List.perm_insertionSort varGE l⟩

/-- JavaScript `Math.round`, which rounds half toward positive infinity. -/
def jsRound (q : ℚ) : ℤ := ⌊q + 1 / 2⌋

/-- The sorted copy built by `calculatePercentile` (`LeagueRankings.tsx` line 66):
`[...allValues].sort((a, b) => reverse ? b - a : a - b)`. -/
def percSorted (allValues : List ℚ) (reverse : Bool) : List ℚ :=
  if reverse then List.insertionSort (fun a b : ℚ => b ≤ a) allValues
  else List.insertionSort (fun a b : ℚ => a ≤ b) allValues

/-- The search predicate of `calculatePercentile` (`LeagueRankings.tsx` line 67):
`v => (reverse ? v <= value : v >= value)`. -/
def percReaches (value : ℚ) (reverse : Bool) (v : ℚ) : Bool :=
  if reverse then decide (v ≤ value) else decide (value ≤ v)

/-- Embedding of `calculatePercentile` (`LeagueRankings.tsx` lines 65-70): sort a
copy of the values, find the first index reaching `value`, return 100 when there
is none and `Math.round((1 - index / sorted.length) * 100)` otherwise. -/
def calculatePercentile (value : ℚ) (allValues : List ℚ) (reverse : Bool) : ℤ :=
  match (percSorted allValues reverse).findIdx? (percReaches value reverse) with
  | none => 100
  | some index => jsRound ((1 - (index : ℚ) / (percSorted allValues reverse).length) * 100)

/-- Bounds of `jsRound` on a positive input at most 100. -/
theorem jsRound_bounds {q : ℚ} (h0 : 0 < q) (h1 : q ≤ 100) :
    0 ≤ jsRound q ∧ jsRound q ≤ 100 := by
  unfold jsRound
  constructor
  · exact Int.le_floor.mpr (by push_cast; linarith)
  · have h := Int.floor_lt.mpr (show q + 1 / 2 < ((101 : ℤ) : ℚ) by push_cast; linarith)
    omega

/-- C9: for every value and non-empty list, `calculatePercentile` returns an
integer between 0 and 100 inclusive; it returns 100 when no element of the list
reaches the value; otherwise it returns `Math.round((1 - index/length) * 100)`
for the first reaching index, and that pre-rounding quantity always lies in the
half-open interval (0, 100]. -/
theorem calculatePercentile_range (value : ℚ) (allValues : List ℚ) (reverse : Bool)
    (hne : allValues ≠ []) :
    (0 ≤ calculatePercentile value allValues reverse ∧
      calculatePercentile value allValues reverse ≤ 100) ∧
    ((∀ v ∈ allValues, percReaches value reverse v = false) →
      calculatePercentile value allValues reverse = 100) ∧
    (∀ i, (percSorted allValues reverse).findIdx? (percReaches value reverse) = some i →
      calculatePercentile value allValues reverse
        = jsRound ((1 - (i : ℚ) / allValues.length) * 100) ∧
      0 < (1 - (i : ℚ) / allValues.length) * 100 ∧
      (1 - (i : ℚ) / allValues.length) * 100 ≤ 100) := by
  have hlen : (percSorted allValues reverse).length = allValues.length := by
    cases reverse <;> simp [percSorted]
  have hmem : ∀ x : ℚ, x ∈ percSorted allValues reverse ↔ x ∈ allValues := by
    intro x
    cases reverse <;> simp [percSorted]
  have hnpos : 0 < allValues.length := List.length_pos.mpr hne
  have hq : ∀ i : Nat, i < allValues.length →
      0 < (1 - (i : ℚ) / allValues.length) * 100 ∧
      (1 - (i : ℚ) / allValues.length) * 100 ≤ 100 := by
    intro i hi
    have hn0 : (0 : ℚ) < allValues.length := by exact_mod_cast hnpos
    have hcast : (i : ℚ) < allValues.length := by exact_mod_cast hi
    have hdiv1 : (i : ℚ) / allValues.length < 1 := (div_lt_one hn0).mpr hcast
    have hdiv0 : 0 ≤ (i : ℚ) / allValues.length :=
      div_nonneg (by positivity) (le_of_lt hn0)
    constructor <;> nlinarith
  refine ⟨?_, ?_, ?_⟩
  · cases h : (percSorted allValues reverse).findIdx? (percReaches value reverse) with
    | none => simp [calculatePercentile, h]
    | some i =>
      have hi : i < allValues.length := by
        have := (List.findIdx?_eq_some_iff_findIdx_eq.mp h).1
        omega
      have hb := jsRound_bounds (hq i hi).1 (hq i hi).2
      simpa [calculatePercentile, h, hlen] using hb
  · intro hall
    have hnone : (percSorted allValues reverse).findIdx? (percReaches value reverse) = none :=
      List.findIdx?_eq_none_iff.mpr (fun x hx => hall x ((hmem x).mp hx))
    simp [calculatePercentile, hnone]
  · intro i h
    have hi : i < allValues.length := by
      have := (List.findIdx?_eq_some_iff_findIdx_eq.mp h).1
      omega
    exact ⟨by simp [calculatePercentile, h, hlen], (hq i hi).1, (hq i hi).2⟩

/-- Witness for `calculatePercentile_range` at a concrete input. -/
theorem calculatePercentile_range_witness :
    (([3, 7] : List ℚ) ≠ []) ∧
    (0 ≤ calculatePercentile 5 [3, 7] false ∧ calculatePercentile 5 [3, 7] false ≤ 100) :=
  ⟨by decide, (calculatePercentile_range 5 [3, 7] false (by decide)).1⟩

/-- JavaScript `Number.prototype.toFixed(1)` modelled on rationals, rounding to
one decimal with half rounded up; exact for the nonnegative values used here. -/
def toFixed1 (q : ℚ) : String :=
  let n : ℤ := ⌊q * 10 + 1 / 2⌋
  toString (n / 10) ++ "." ++ toString (n % 10)

/-- JavaScript `Number.prototype.toFixed(0)` modelled on rationals, rounding to
an integer with half rounded up; exact for the nonnegative values used here. -/
def toFixed0 (q : ℚ) : String := toString ⌊q + 1 / 2⌋

/-- Embedding of `fmt` from `OpponentDetailModal` (part_005 lines 30-31):
ratio categories render as `(v * 100).toFixed(1) + "%"`, turnovers as
`v.toFixed(0)`, every other category as `v.toFixed(1)`. -/
def fmt (cat : String) (v : ℚ) : String :=
  if cat = "FG%" ∨ cat = "FT%" then toFixed1 (v * 100) ++ "%"
  else if cat = "TO" then toFixed0 v
  else toFixed1 v

/-- Embedding of `formatCategoryValue` from `LivePredictions.tsx` (lines 55-60):
ratio categories render as `(value * 100).toFixed(1) + "%"`, the rest as
`value.toFixed(1)`. -/
def formatCategoryValue (category : String) (value : ℚ) : String :=
  if category = "FG%" ∨ category = "FT%" then toFixed1 (value * 100) ++ "%"
  else toFixed1 value

/-- Rendering the value 0 with one decimal gives the string "0.0". -/
theorem toFixed1_zero : toFixed1 (0 : ℚ) = "0.0" := by
  have h : ⌊(0 : ℚ) * 10 + 1 / 2⌋ = 0 := by
    rw [Int.floor_eq_iff]
    norm_num
  simp only [toFixed1, h]
  decide

/-- C5 counterexample: a ratio category whose value is absent from the totals
record is rendered by `OpponentDetailModal` as the string "0.0%" (the `?? 0`
default), and `formatCategoryValue` likewise renders a zero ratio value as
"0.0%" — not as a "no data" sentinel. -/
theorem ratio_absent_renders_zero_percent :
    fmt "FG%" ((none : Option ℚ).getD 0) = "0.0%" ∧
    formatCategoryValue "FG%" 0 = "0.0%" ∧ "0.0%" ≠ "no data" := by
  refine ⟨?_, ?_, by decide⟩ <;>
    simp [fmt, formatCategoryValue, Option.getD, toFixed1_zero]

/-- C5 amended: for ratio categories the rendering never uses a "no data"
sentinel; the value is defaulted to 0 when absent, so an absent or zero-valued
ratio category is rendered as the percent string "0.0%". -/
theorem ratio_format_defaults_zero (totals : String → Option ℚ) (cat : String)
    (hcat : cat = "FG%" ∨ cat = "FT%") :
    fmt cat (catVal totals cat) = toFixed1 (catVal totals cat * 100) ++ "%" ∧
    (totals cat = none → fmt cat (catVal totals cat) = "0.0%") := by
  constructor
  · simp [fmt, hcat]
  · intro hnone
    have hzero : catVal totals cat = 0 := by simp [catVal, hnone]
    rw [hzero]
    rcases hcat with h | h <;> subst h <;> simp [fmt, toFixed1_zero]

/-- Witness for `ratio_format_defaults_zero` at a concrete totals record. -/
theorem ratio_format_defaults_zero_witness :
    ((fun _ => (none : Option ℚ)) "FG%" = none) ∧
    fmt "FG%" (catVal (fun _ => (none : Option ℚ)) "FG%") = "0.0%" := by
  refine ⟨rfl, ?_⟩
  exact (ratio_format_defaults_zero (fun _ => none) "FG%" (Or.inl rfl)).2 rfl

/-- A team entry of the current-week payload in `LeagueOverview.tsx`: team name
and `category_totals` record (possibly missing a category). -/
structure OverviewTeam where
  name : String
  category_totals : String → Option ℚ

/-- Category-total access in `LeagueOverview.tsx` line 221:
`team.category_totals?.[cat] || 0`. -/
def ovVal (team : OverviewTeam) (cat : String) : ℚ := (team.category_totals cat).getD 0

/-- One `forEach` step of the dominator scan in `LeagueOverview.tsx` lines
216-236.  The initial `bestValue` of `Infinity` (for TO) or `-Infinity`
(otherwise) together with the final `if (dominatorTeam)` guard is modelled by an
`Option` accumulator: `none` means no team recorded yet. -/
def dominatorStep (cat : String) (best : Option (String × ℚ)) (team : OverviewTeam) :
    Option (String × ℚ) :=
  let value := ovVal team cat
  if cat = "TO" then
    match best with
    | none => if 0 < value then some (team.name, value) else none
    | some (t, bv) => if 0 < value ∧ value < bv then some (team.name, value) else some (t, bv)
  else
    match best with
    | none => some (team.name, value)
    | some (t, bv) => if bv < value then some (team.name, value) else some (t, bv)

/-- Embedding of the per-category dominator computation of
`currentWeekCategoryDominators` (`LeagueOverview.tsx` lines 214-244). -/
def categoryDominator (cat : String) (teams : List OverviewTeam) : Option (String × ℚ) :=
  teams.foldl (dominatorStep cat) none

/-- Characterization of the higher-is-better scan: the earliest team attaining
the largest (defaulted) total. -/
def earliestMaxBy (cat : String) : List OverviewTeam → Option (String × ℚ)
  | [] => none
  | t :: rest =>
    match earliestMaxBy cat rest with
    | none => some (t.name, ovVal t cat)
    | some (n, bv) => if ovVal t cat < bv then some (n, bv) else some (t.name, ovVal t cat)

/-- Characterization of the turnovers scan: the earliest team attaining the
smallest strictly positive (defaulted) total. -/
def earliestMinPosBy (cat : String) : List OverviewTeam → Option (String × ℚ)
  | [] => none
  | t :: rest =>
    match earliestMinPosBy cat rest with
    | none => if 0 < ovVal t cat then some (t.name, ovVal t cat) else none
    | some (n, bv) =>
      if 0 < ovVal t cat then
        if bv < ovVal t cat then some (n, bv) else some (t.name, ovVal t cat)
      else some (n, bv)

/-- The higher-is-better fold started from an accumulator computes the better of
the accumulator and the characterized maximum. -/
theorem foldl_dominatorStep_max (cat : String) (hcat : cat ≠ "TO") :
    ∀ (l : List OverviewTeam) (acc : String × ℚ),
      l.foldl (dominatorStep cat) (some acc)
        = some (match earliestMaxBy cat l with
                | none => acc
                | some (n, bv) => if acc.2 < bv then (n, bv) else acc) := by
  intro l
  induction l with
  | nil => simp [earliestMaxBy]
  | cons t rest ih =>
    intro acc
    simp only [List.foldl_cons, dominatorStep, if_neg hcat]
    by_cases h : acc.2 < ovVal t cat
    · rw [if_pos h, ih]
      simp only [earliestMaxBy]
      cases hr : earliestMaxBy cat rest with
      | none => simp [h]
      | some p =>
        rcases p with ⟨n, bv⟩
        by_cases h2 : ovVal t cat < bv
        · simp only [if_pos h2]
          have : acc.2 < bv := lt_trans h h2
          simp [h2, this]
        · simp [h2, h, not_lt_of_le (le_of_not_lt h2)]
    · rw [if_neg h, ih]
      simp only [earliestMaxBy]
      cases hr : earliestMaxBy cat rest with
      | none => simp [h]
      | some p =>
        rcases p with ⟨n, bv⟩
        by_cases h2 : ovVal t cat < bv
        · simp [h2]
        · have hb : ¬ acc.2 < bv := fun hc =>
            h (lt_of_lt_of_le hc (le_of_not_lt h2))
          simp [h2, h, hb]

/-- The turnovers fold started from an accumulator computes the better of the
accumulator and the characterized positive minimum. -/
theorem foldl_dominatorStep_to :
    ∀ (l : List OverviewTeam) (acc : String × ℚ),
      l.foldl (dominatorStep "TO") (some acc)
        = some (match earliestMinPosBy "TO" l with
                | none => acc
                | some (n, bv) => if bv < acc.2 then (n, bv) else acc) := by
  intro l
  induction l with
  | nil => simp [earliestMinPosBy]
  | cons t rest ih =>
    intro acc
    obtain ⟨an, av⟩ := acc
    by_cases hp : 0 < ovVal t "TO"
    · by_cases hlt : ovVal t "TO" < av
      · have hstep : dominatorStep "TO" (some (an, av)) t = some (t.name, ovVal t "TO") := by
          simp [dominatorStep, hp, hlt]
        rw [List.foldl_cons, hstep, ih]
        simp only [earliestMinPosBy]
        cases hr : earliestMinPosBy "TO" rest with
        | none => simp [hp, hlt]
        | some p =>
          obtain ⟨n, bv⟩ := p
          by_cases h2 : bv < ovVal t "TO"
          · have hba : bv < av := lt_trans h2 hlt
            simp [hp, h2, hba]
          · simp [hp, h2, hlt]
      · have hstep : dominatorStep "TO" (some (an, av)) t = some (an, av) := by
          simp [dominatorStep, hp, hlt]
        rw [List.foldl_cons, hstep, ih]
        simp only [earliestMinPosBy]
        cases hr : earliestMinPosBy "TO" rest with
        | none => simp [hp, hlt]
        | some p =>
          obtain ⟨n, bv⟩ := p
          by_cases h2 : bv < ovVal t "TO"
          · simp [hp, h2]
          · have hb : ¬ bv < av :=
              not_lt_of_le (le_trans (le_of_not_lt hlt) (le_of_not_lt h2))
            simp [hp, h2, hlt, hb]
    · have hstep : dominatorStep "TO" (some (an, av)) t = some (an, av) := by
        simp [dominatorStep, hp]
      rw [List.foldl_cons, hstep, ih]
      simp only [earliestMinPosBy]
      cases hr : earliestMinPosBy "TO" rest with
      | none => simp [hp]
      | some p =>
        obtain ⟨n, bv⟩ := p
        simp [hp]

/-- The turnovers dominator scan computes the earliest positive minimum. -/
theorem categoryDominator_to_eq :
    ∀ teams, categoryDominator "TO" teams = earliestMinPosBy "TO" teams := by
  intro teams
  induction teams with
  | nil => rfl
  | cons t rest ih =>
    by_cases hp : 0 < ovVal t "TO"
    · have hstep : dominatorStep "TO" none t = some (t.name, ovVal t "TO") := by
        simp [dominatorStep, hp]
      rw [categoryDominator, List.foldl_cons, hstep, foldl_dominatorStep_to]
      simp only [earliestMinPosBy]
      cases hr : earliestMinPosBy "TO" rest with
      | none => simp [hp]
      | some p =>
        obtain ⟨n, bv⟩ := p
        by_cases h2 : bv < ovVal t "TO" <;> simp [hp, h2]
    · have hstep : dominatorStep "TO" none t = none := by
        simp [dominatorStep, hp]
      rw [categoryDominator, List.foldl_cons, hstep]
      have hrest : List.foldl (dominatorStep "TO") none rest = earliestMinPosBy "TO" rest := ih
      rw [hrest]
      simp only [earliestMinPosBy]
      cases hr : earliestMinPosBy "TO" rest with
      | none => simp [hp]
      | some p =>
        obtain ⟨n, bv⟩ := p
        simp [hp]

/-- The higher-is-better dominator scan computes the earliest maximum. -/
theorem categoryDominator_max_eq (cat : String) (hcat : cat ≠ "TO") :
    ∀ teams, categoryDominator cat teams = earliestMaxBy cat teams := by
  intro teams
  cases teams with
  | nil => rfl
  | cons t rest =>
    have hstep : dominatorStep cat none t = some (t.name, ovVal t cat) := by
      simp [dominatorStep, hcat]
    rw [categoryDominator, List.foldl_cons, hstep, foldl_dominatorStep_max cat hcat]
    simp only [earliestMaxBy]
    cases hr : earliestMaxBy cat rest with
    | none => simp
    | some p =>
      obtain ⟨n, bv⟩ := p
      by_cases h2 : ovVal t cat < bv <;> simp [h2]

/-- The earliest positive minimum always carries a strictly positive value. -/
theorem earliestMinPosBy_pos :
    ∀ (l : List OverviewTeam) (n : String) (v : ℚ),
      earliestMinPosBy "TO" l = some (n, v) → 0 < v := by
  intro l
  induction l with
  | nil =>
    intro n v h
    simp [earliestMinPosBy] at h
  | cons t rest ih =>
    intro n v h
    simp only [earliestMinPosBy] at h
    cases hr : earliestMinPosBy "TO" rest with
    | none =>
      rw [hr] at h
      by_cases hp : 0 < ovVal t "TO"
      · simp only [if_pos hp, Option.some.injEq, Prod.mk.injEq] at h
        exact h.2 ▸ hp
      · simp [hp] at h
    | some p =>
      obtain ⟨m, bv⟩ := p
      rw [hr] at h
      have hbv : 0 < bv := ih m bv hr
      by_cases hp : 0 < ovVal t "TO"
      · by_cases h2 : bv < ovVal t "TO"
        · simp only [if_pos hp, if_pos h2, Option.some.injEq, Prod.mk.injEq] at h
          exact h.2 ▸ hbv
        · simp only [if_pos hp, if_neg h2, Option.some.injEq, Prod.mk.injEq] at h
          exact h.2 ▸ hp
      · simp only [if_neg hp, Option.some.injEq, Prod.mk.injEq] at h
        exact h.2 ▸ hbv

/-- C10: the current-week turnovers dominator is the earliest team with the
smallest strictly positive TO total, so a team whose TO total is 0 or missing is
never selected; for every other category the dominator is the earliest team with
the largest (defaulted) total. -/
theorem category_dominators_characterization (teams : List OverviewTeam) (cat : String) :
    categoryDominator "TO" teams = earliestMinPosBy "TO" teams ∧
    (∀ n v, categoryDominator "TO" teams = some (n, v) → 0 < v) ∧
    (cat ≠ "TO" → categoryDominator cat teams = earliestMaxBy cat teams) := by
  refine ⟨categoryDominator_to_eq teams, ?_, fun hcat => categoryDominator_max_eq cat hcat teams⟩
  intro n v h
  rw [categoryDominator_to_eq teams] at h
  exact earliestMinPosBy_pos teams n v h

/-- Witness for `category_dominators_characterization` at a concrete two-team
week: team A has TO total 0 (best possible, yet never selected) and team B has
TO total 3; team A dominates PTS. -/
theorem category_dominators_characterization_witness :
    ("PTS" : String) ≠ "TO" ∧
    categoryDominator "TO"
        [⟨"A", fun c => if c = "TO" then some 0 else some 10⟩,
         ⟨"B", fun c => if c = "TO" then some 3 else some 8⟩] = some ("B", 3) ∧
    (0 : ℚ) < 3 ∧
    categoryDominator "PTS"
        [⟨"A", fun c => if c = "TO" then some 0 else some 10⟩,
         ⟨"B", fun c => if c = "TO" then some 3 else some 8⟩]
      = earliestMaxBy "PTS"
        [⟨"A", fun c => if c = "TO" then some 0 else some 10⟩,
         ⟨"B", fun c => if c = "TO" then some 3 else some 8⟩] := by
  have hdom : categoryDominator "TO"
      [⟨"A", fun c => if c = "TO" then some 0 else some 10⟩,
       ⟨"B", fun c => if c = "TO" then some 3 else some 8⟩] = some ("B", 3) := by
    simp [categoryDominator, dominatorStep, ovVal]
  refine ⟨by decide, hdom, ?_, ?_⟩
  · exact (category_dominators_characterization
      [⟨"A", fun c => if c = "TO" then some 0 else some 10⟩,
       ⟨"B", fun c => if c = "TO" then some 3 else some 8⟩] "PTS").2.1 "B" 3 hdom
  · exact (category_dominators_characterization
      [⟨"A", fun c => if c = "TO" then some 0 else some 10⟩,
       ⟨"B", fun c => if c = "TO" then some 3 else some 8⟩] "PTS").2.2 (by decide)

/-- Result of resolving a team-name pair against a week's schedule. -/
inductive MatchResult where
  | found (m : String × String)
  | noSuchMatchup
  | ambiguousMatchup
deriving DecidableEq

/-- Lower-casing of a name, character by character. -/
def lowerStr (s : String) : String := String.mk (s.data.map Char.toLower)

/-- Case-insensitive name equality used by the matchup matcher. -/
def sameIgnoreCase (a b : String) : Bool := lowerStr a == lowerStr b

/-- A scheduled matchup matches a supplied name pair exactly when its two
participants are the supplied pair as a two-element set, case-insensitively and
order-independently. -/
def pairMatches (m : String × String) (n1 n2 : String) : Bool :=
  (sameIgnoreCase m.1 n1 && sameIgnoreCase m.2 n2) ||
  (sameIgnoreCase m.1 n2 && sameIgnoreCase m.2 n1)

/-- Modelled from the spec: the backend `MatchupIdentityMatcher` is not among the
repository sources (the frontend only passes `team1`/`team2` to a backend
endpoint), so it is modelled from the specification's words: return the single
scheduled matchup whose two participants are exactly the supplied pair
(case-insensitive, order-independent), `NoSuchMatchupError` when no matchup
matches, and `AmbiguousMatchupError` when more than one does. -/
def matchupIdentityMatcher (n1 n2 : String) (schedule : List (String × String)) :
    MatchResult :=
  match schedule.filter (fun m => pairMatches m n1 n2) with
  | [] => .noSuchMatchup
  | [m] => .found m
  | _ :: _ :: _ => .ambiguousMatchup

/-- C6: a found matchup is a scheduled matchup whose participants are exactly the
supplied pair as a case-insensitive two-element set, and the pair
("Team A", "Team C") against the schedule containing the matchup of Team A with
Team B and the matchup of Team C with Team D resolves to `NoSuchMatchupError`,
never a match based on one name's presence alone. -/
theorem matchup_matcher_exact_pair (n1 n2 : String) (schedule : List (String × String))
    (m : String × String) :
    (matchupIdentityMatcher n1 n2 schedule = .found m →
      m ∈ schedule ∧
      ((lowerStr m.1 = lowerStr n1 ∧ lowerStr m.2 = lowerStr n2) ∨
       (lowerStr m.1 = lowerStr n2 ∧ lowerStr m.2 = lowerStr n1))) ∧
    matchupIdentityMatcher "Team A" "Team C" [("Team A", "Team B"), ("Team C", "Team D")]
      = .noSuchMatchup := by
  constructor
  · intro h
    have hm : m ∈ schedule.filter (fun m => pairMatches m n1 n2) := by
      unfold matchupIdentityMatcher at h
      cases hf : schedule.filter (fun m => pairMatches m n1 n2) with
      | nil => rw [hf] at h; cases h
      | cons a rest =>
        cases rest with
        | nil =>
          rw [hf] at h
          cases h
          simp [hf]
        | cons b rest2 => rw [hf] at h; cases h
    rcases List.mem_filter.mp hm with ⟨hmem, hp⟩
    refine ⟨hmem, ?_⟩
    simp only [pairMatches, sameIgnoreCase, Bool.or_eq_true, Bool.and_eq_true,
      beq_iff_eq] at hp
    exact hp
  · decide

/-- Witness for `matchup_matcher_exact_pair`: a case-insensitively supplied pair
resolves to the exact scheduled matchup. -/
theorem matchup_matcher_exact_pair_witness :
    matchupIdentityMatcher "team a" "TEAM B" [("Team A", "Team B")]
      = .found ("Team A", "Team B") ∧
    ("Team A", "Team B") ∈ [("Team A", "Team B")] := by
  have happ := (matchup_matcher_exact_pair "team a" "TEAM B" [("Team A", "Team B")]
    ("Team A", "Team B")).1
  exact ⟨by decide, (happ (by decide)).1⟩

/-- Simple mean of a list of rationals. -/
def mean (l : List ℚ) : ℚ := l.sum / l.length

/-- One entry of the most-improved output, as consumed by
`ImprovementComparisonModal` (part_007): team name, early and recent four-week
averages of teams beaten, and their difference. -/
structure ImprovedTeam where
  name : String
  early_avg : ℚ
  recent_avg : ℚ
  improvement : ℚ
deriving DecidableEq

/-- Descending-improvement comparator for the most-improved ranking. -/
def improvedGE (a b : ImprovedTeam) : Prop := b.improvement ≤ a.improvement

instance : DecidableRel improvedGE :=
  fun a b => inferInstanceAs (Decidable (b.improvement ≤ a.improvement))

instance : IsTotal ImprovedTeam improvedGE :=
  ⟨fun a b => le_total b.improvement a.improvement⟩

instance : IsTrans ImprovedTeam improvedGE := ⟨fun _ _ _ h1 h2 => le_trans h2 h1⟩

/-- Modelled from the spec: the backend `LeagueStatsAggregator` most-improved
computation is not among the repository sources (the frontend modal only renders
`improved_teams` from the stats endpoint), so it is modelled from the
specification's words: a team qualifies only with at least 8 completed weeks;
improvement is the mean teams-beaten count of the most recent 4 weeks minus the
mean of the first 4 weeks; only positive improvements are reported, ranked
descending.  A team's completed weeks are its list of weekly teams-beaten
counts. -/
def mostImproved (history : List (String × List ℚ)) : List ImprovedTeam :=
  List.insertionSort improvedGE
    (history.filterMap (fun p =>
      if 8 ≤ p.2.length then
        if 0 < mean (p.2.drop (p.2.length - 4)) - mean (p.2.take 4) then
          some ⟨p.1, mean (p.2.take 4), mean (p.2.drop (p.2.length - 4)),
                mean (p.2.drop (p.2.length - 4)) - mean (p.2.take 4)⟩
        else none
      else none))

/-- C7: the most-improved computation returns no entries when fewer than 8
completed weeks exist; every reported entry has positive improvement equal to the
mean teams-beaten count of the most recent 4 weeks minus the mean of the first 4
weeks of some team with at least 8 completed weeks; and the report is ranked by
improvement descending. -/
theorem most_improved_window_rule (history : List (String × List ℚ)) (weeks : Nat)
    (hlen : ∀ p ∈ history, p.2.length = weeks) :
    (weeks < 8 → mostImproved history = []) ∧
    (∀ e ∈ mostImproved history, 0 < e.improvement ∧
      e.improvement = e.recent_avg - e.early_avg ∧
      ∃ p ∈ history, p.1 = e.name ∧ 8 ≤ p.2.length ∧
        e.early_avg = mean (p.2.take 4) ∧
        e.recent_avg = mean (p.2.drop (p.2.length - 4))) ∧
    (mostImproved history).Sorted improvedGE := by
  refine ⟨?_, ?_, List.sorted_insertionSort improvedGE _⟩
  · intro hlt
    unfold mostImproved
    have hnil : history.filterMap (fun p =>
        if 8 ≤ p.2.length then
          if 0 < mean (p.2.drop (p.2.length - 4)) - mean (p.2.take 4) then
            some (⟨p.1, mean (p.2.take 4), mean (p.2.drop (p.2.length - 4)),
                  mean (p.2.drop (p.2.length - 4)) - mean (p.2.take 4)⟩ : ImprovedTeam)
          else none
        else none) = [] := by
      rw [List.filterMap_eq_nil_iff]
      intro p hp
      have h8 : ¬ 8 ≤ p.2.length := by
        rw [hlen p hp]
        omega
      simp [h8]
    rw [hnil]
    rfl
  · intro e he
    rw [mostImproved, List.mem_insertionSort] at he
    rcases List.mem_filterMap.mp he with ⟨p, hp, hsome⟩
    by_cases h8 : 8 ≤ p.2.length
    · by_cases hpos : 0 < mean (p.2.drop (p.2.length - 4)) - mean (p.2.take 4)
      · simp only [if_pos h8, if_pos hpos, Option.some.injEq] at hsome
        subst hsome
        exact ⟨hpos, rfl, p, hp, rfl, h8, rfl, rfl⟩
      · simp [h8, hpos] at hsome
    · simp [h8] at hsome

/-- Witness for `most_improved_window_rule`: a single team with exactly 8
completed weeks, early-four mean 2 and recent-four mean 3.5, reported with
improvement 1.5. -/
theorem most_improved_window_rule_witness :
    (∀ p ∈ [(("A", [2, 2, 2, 2, 3, 4, 3, 4]) : String × List ℚ)], p.2.length = 8) ∧
    mostImproved [(("A", [2, 2, 2, 2, 3, 4, 3, 4]) : String × List ℚ)]
      = [⟨"A", 2, 7 / 2, 3 / 2⟩] ∧
    (∀ e ∈ mostImproved [(("A", [2, 2, 2, 2, 3, 4, 3, 4]) : String × List ℚ)],
      0 < e.improvement ∧ e.improvement = e.recent_avg - e.early_avg ∧
      ∃ p ∈ [(("A", [2, 2, 2, 2, 3, 4, 3, 4]) : String × List ℚ)], p.1 = e.name ∧
        8 ≤ p.2.length ∧ e.early_avg = mean (p.2.take 4) ∧
        e.recent_avg = mean (p.2.drop (p.2.length - 4))) := by
  refine ⟨by decide, ?_, ?_⟩
  · norm_num [mostImproved, mean, List.insertionSort, List.filterMap]
  · exact (most_improved_window_rule [(("A", [2, 2, 2, 2, 3, 4, 3, 4]) : String × List ℚ)] 8
      (by decide)).2.1

end FantasyNBA
